import Mathlib

/-!
Verification of the BACnet tools specification against the repository code.

The repository is a Tk GUI that invokes external pre-built BACnet
command-line executables (bacwi.exe, bacrp.exe, bacwp.exe) and parses their
text output.  The specification describes two layers:

* the BACnet protocol core (Codec, Transport, Foreign Device Registrar,
  Request/Response Correlator, Service Layer) that the external executables
  implement — this code is not part of the repository, so those components
  are modelled here from the specification text and marked as such; and
* the GUI glue itself (command construction, history handling, stdout
  parsing) which is present in the repository sources and is embedded here
  directly from `bacnet_logic.py`, `main_app.py` and `config.py`.

All definitions are computable and fuel-based recursions are used where a
structural measure is not syntactically available, so every concrete
evaluation below reduces definitionally.
-/

set_option maxHeartbeats 1000000
set_option maxRecDepth 4096

namespace BacnetTools

/-! ### Byte-level helpers (big-endian, network byte order per the spec) -/

/-- Modelled from the spec: "All multi-byte integers are big-endian
(network byte order)".  Value of a big-endian byte list. -/
def bytesToNat (bs : List Nat) : Nat :=
  bs.foldl (fun acc b => acc * 256 + b) 0

/-- Fixed-width big-endian byte encoding (most significant byte first). -/
def natToBytesFixed : Nat → Nat → List Nat
  | 0, _ => []
  | w + 1, n => natToBytesFixed w (n / 256) ++ [n % 256]

/-- Fuel-based worker for the minimal big-endian encoding. -/
def natToBytesAux : Nat → Nat → List Nat
  | 0, n => [n]
  | fuel + 1, n => if n < 256 then [n] else natToBytesAux fuel (n / 256) ++ [n % 256]

/-- Minimal big-endian byte encoding of a natural number; zero encodes as a
single zero byte. -/
def natToBytes (n : Nat) : List Nat :=
  natToBytesAux n n

/-- Fuel-based worker for the minimal two's-complement encoding. -/
def intToBytesAux : Nat → Int → List Nat
  | 0, i => [(i % 256).toNat]
  | fuel + 1, i =>
    if -128 ≤ i ∧ i < 128 then [(i % 256).toNat]
    else intToBytesAux fuel (i / 256) ++ [(i % 256).toNat]

/-- Minimal big-endian two's-complement encoding of an integer. -/
def intToBytes (i : Int) : List Nat :=
  intToBytesAux i.natAbs i

/-- Two's-complement value of a big-endian byte list. -/
def bytesToInt (bs : List Nat) : Int :=
  let u := bytesToNat bs
  if u < 2 ^ (8 * bs.length - 1) then (u : Int)
  else (u : Int) - ((2 ^ (8 * bs.length) : Nat) : Int)

/-! ### Tag headers and length fields

Modelled from the spec §4.1: "Tag encoding follows BACnet's
context/application tag-length-value rules: tag number (0–14 inline, 15+
extended byte), class bit (application vs context), length/value/type byte,
and extended length encoding for lengths ≥5 (length byte 5 => following
1/2/4-byte length)." -/

/-- Modelled from the spec: the initial tag octet (tag number nibble, class
bit, length/value/type field), with the extended tag-number octet for tag
numbers above 14. -/
def encodeTagByte (tagNum : Nat) (ctx : Bool) (lvt : Nat) : List Nat :=
  let c := if ctx then 8 else 0
  if tagNum ≤ 14 then [tagNum * 16 + c + lvt] else [240 + c + lvt, tagNum]

/-- Modelled from the spec: decode the initial tag octet (and the extended
tag-number octet when the nibble is 15) into tag number, class bit and
length/value/type field. -/
def decodeTagHeader : List Nat → Option (Nat × Bool × Nat × List Nat)
  | [] => none
  | b :: rest =>
    if b / 16 = 15 then
      match rest with
      | [] => none
      | t :: rest2 => some (t, decide (b / 8 % 2 = 1), b % 8, rest2)
    else some (b / 16, decide (b / 8 % 2 = 1), b % 8, rest)

/-- Modelled from the spec: the length field of a primitive tag.  Lengths
0–4 are carried in the length/value/type bits; lengths ≥ 5 set the field to
5 and append a 1-byte (≤253), 2-byte (marker 254) or 4-byte (marker 255)
big-endian length. -/
def lenField (n : Nat) : Nat × List Nat :=
  if n ≤ 4 then (n, [])
  else if n ≤ 253 then (5, [n])
  else if n ≤ 65535 then (5, [254, n / 256, n % 256])
  else (5, 255 :: natToBytesFixed 4 n)

/-- Modelled from the spec: decode the length of a primitive tag from the
length/value/type field and the following bytes (inverse of `lenField`). -/
def decodeLen (lvt : Nat) (bs : List Nat) : Option (Nat × List Nat) :=
  if lvt ≤ 4 then some (lvt, bs)
  else if lvt = 5 then
    match bs with
    | [] => none
    | b :: rest =>
      if b ≤ 253 then some (b, rest)
      else if b = 254 then
        match rest with
        | b1 :: b2 :: rest2 => some (b1 * 256 + b2, rest2)
        | _ => none
      else
        match rest with
        | b1 :: b2 :: b3 :: b4 :: rest2 => some (bytesToNat [b1, b2, b3, b4], rest2)
        | _ => none
  else none

/-! ### PropertyValue and the application-tag Codec

Modelled from the spec §3: "PropertyValue: tagged union over BACnet
primitive application tags \x7bNull, Boolean, UnsignedInt, SignedInt,
Real(f32), Double(f64), OctetString, CharacterString, BitString,
Enumerated, Date, Time, ObjectIdentifier\x7d plus constructed/array forms."
Real and Double carry their IEEE-754 big-endian bit patterns as natural
numbers, which is exactly what travels on the wire. -/

inductive PropertyValue where
  | null
  | boolean (b : Bool)
  | unsignedInt (n : Nat)
  | signedInt (i : Int)
  | real (bits : Nat)
  | double (bits : Nat)
  | octetString (bs : List Nat)
  | characterString (bs : List Nat)
  | bitString (unused : Nat) (bs : List Nat)
  | enumerated (n : Nat)
  | date (year month day weekday : Nat)
  | time (hour minute second hundredth : Nat)
  | objectIdentifier (objType inst : Nat)
  | constructed (tagNum : Nat) (elems : List PropertyValue)
deriving Repr, Inhabited

/-- Application tag number of a primitive value, per the BACnet enumeration
referenced throughout the spec (Null 0 … ObjectIdentifier 12). -/
def PropertyValue.appTag : PropertyValue → Nat
  | .null => 0
  | .boolean _ => 1
  | .unsignedInt _ => 2
  | .signedInt _ => 3
  | .real _ => 4
  | .double _ => 5
  | .octetString _ => 6
  | .characterString _ => 7
  | .bitString _ _ => 8
  | .enumerated _ => 9
  | .date _ _ _ _ => 10
  | .time _ _ _ _ => 11
  | .objectIdentifier _ _ => 12
  | .constructed _ _ => 15

/-- Content octets of a primitive value (empty for constructed values,
whose encoding is handled separately). -/
def PropertyValue.contentBytes : PropertyValue → List Nat
  | .null => []
  | .boolean b => [if b then 1 else 0]
  | .unsignedInt n => natToBytes n
  | .signedInt i => intToBytes i
  | .real bits => natToBytesFixed 4 bits
  | .double bits => natToBytesFixed 8 bits
  | .octetString bs => bs
  | .characterString bs => bs
  | .bitString unused bs => unused :: bs
  | .enumerated n => natToBytes n
  | .date y m d w => [y, m, d, w]
  | .time h m s hu => [h, m, s, hu]
  | .objectIdentifier t i => natToBytesFixed 4 (t * 4194304 + i)
  | .constructed _ _ => []

mutual

/-- Validity of a `PropertyValue` per the data-model bounds of the spec
(octet contents are bytes, Real/Double bit patterns fit 32/64 bits,
UnsignedInt/Enumerated are 32-bit, SignedInt is a 32-bit two's-complement
value, object type 0..1023, instance 0..4194303, bit-string pad ≤ 7,
context tag numbers fit the extended tag octet, string contents short
enough for the 4-byte extended length form). -/
def PropertyValue.validb : PropertyValue → Bool
  | .null => true
  | .boolean _ => true
  | .unsignedInt n => n < 4294967296
  | .signedInt i => decide (-2147483648 ≤ i ∧ i < 2147483648)
  | .real bits => bits < 4294967296
  | .double bits => bits < 18446744073709551616
  | .octetString bs => bs.all (· < 256) && bs.length < 4294967296
  | .characterString bs => bs.all (· < 256) && bs.length < 4294967296
  | .bitString unused bs => unused ≤ 7 && bs.all (· < 256) && bs.length + 1 < 4294967296
  | .enumerated n => n < 4294967296
  | .date y m d w => y < 256 && m < 256 && d < 256 && w < 256
  | .time h m s hu => h < 256 && m < 256 && s < 256 && hu < 256
  | .objectIdentifier t i => t < 1024 && i < 4194304
  | .constructed tagNum elems => tagNum < 255 && validList elems

/-- Validity of every value in a list. -/
def validList : List PropertyValue → Bool
  | [] => true
  | v :: vs => v.validb && validList vs

end

/-- Parse the content octets of a primitive application tag back into a
`PropertyValue`.  Unknown application tag numbers are an `UnsupportedTag`
decode failure, represented by `none`. -/
def parseContent : Nat → List Nat → Option PropertyValue
  | 0, c => if c = [] then some .null else none
  | 1, c => match c with
            | [b] => some (.boolean (decide (b ≠ 0)))
            | _ => none
  | 2, c => some (.unsignedInt (bytesToNat c))
  | 3, c => some (.signedInt (bytesToInt c))
  | 4, c => if c.length = 4 then some (.real (bytesToNat c)) else none
  | 5, c => if c.length = 8 then some (.double (bytesToNat c)) else none
  | 6, c => some (.octetString c)
  | 7, c => some (.characterString c)
  | 8, c => match c with
            | unused :: bs => some (.bitString unused bs)
            | [] => none
  | 9, c => some (.enumerated (bytesToNat c))
  | 10, c => match c with
             | [y, m, d, w] => some (.date y m d w)
             | _ => none
  | 11, c => match c with
             | [h, m, s, hu] => some (.time h m s hu)
             | _ => none
  | 12, c => if c.length = 4 then
               some (.objectIdentifier (bytesToNat c / 4194304) (bytesToNat c % 4194304))
             else none
  | _, _ => none

mutual

/-- Modelled from the spec §4.1 (`encodeApdu` restricted to application
data): a primitive value is its application tag octet, length field and
content octets; a constructed value is a context-class opening tag
(length/value/type 6), the encodings of its elements, and the matching
closing tag (length/value/type 7). -/
def encodeValue : PropertyValue → List Nat
  | .constructed t es => encodeTagByte t true 6 ++ encodeList es ++ encodeTagByte t true 7
  | v =>
    let c := v.contentBytes
    encodeTagByte v.appTag false (lenField c.length).1 ++ (lenField c.length).2 ++ c

/-- Concatenated encodings of a list of values. -/
def encodeList : List PropertyValue → List Nat
  | [] => []
  | v :: vs => encodeValue v ++ encodeList vs

end

mutual

/-- Modelled from the spec §4.1 (`decodeApdu` restricted to application
data): decode one tagged value from a byte stream.  Fails (`none`) on a
truncated stream (`MalformedTag`) or an unknown application tag
(`UnsupportedTag`).  The fuel argument bounds the recursion depth and is
in practice the length of the stream. -/
def decodeValue : Nat → List Nat → Option (PropertyValue × List Nat)
  | 0, _ => none
  | fuel + 1, bs =>
    match decodeTagHeader bs with
    | none => none
    | some (t, ctx, lvt, rest) =>
      if ctx then
        if lvt = 6 then
          match decodeSeq fuel t rest with
          | some (es, rest2) => some (.constructed t es, rest2)
          | none => none
        else none
      else
        match decodeLen lvt rest with
        | none => none
        | some (n, rest2) =>
          if n ≤ rest2.length then
            match parseContent t (rest2.take n) with
            | some v => some (v, rest2.drop n)
            | none => none
          else none

/-- Decode a sequence of values up to the closing tag matching `t`. -/
def decodeSeq : Nat → Nat → List Nat → Option (List PropertyValue × List Nat)
  | 0, _, _ => none
  | fuel + 1, t, bs =>
    match decodeTagHeader bs with
    | none => none
    | some (t2, ctx, lvt, rest) =>
      if ctx ∧ lvt = 7 then
        if t2 = t then some ([], rest) else none
      else
        match decodeValue fuel bs with
        | none => none
        | some (v, bs2) =>
          match decodeSeq fuel t bs2 with
          | some (vs, rest2) => some (v :: vs, rest2)
          | none => none

end

/-- Modelled from the spec: `encodeApdu(Apdu) -> bytes`, restricted to the
application-tagged `PropertyValue` payload. -/
def encodeApdu (v : PropertyValue) : List Nat :=
  encodeValue v

/-- Modelled from the spec: `decodeApdu(bytes) -> Apdu | DecodeError`,
restricted to the application-tagged `PropertyValue` payload; `none` is the
`DecodeError` case.  The whole stream must be consumed. -/
def decodeApdu (bs : List Nat) : Option PropertyValue :=
  match decodeValue bs.length bs with
  | some (v, []) => some v
  | _ => none

/-! ### Request/Response Correlator

Modelled from the spec §4.4: `sendConfirmed` "allocates the next free
invoke-ID (monotonic counter mod 256, skipping IDs currently pending),
stores a PendingRequest, transmits, and arms a timeout.  On timeout with
retries remaining: retransmit with the same invoke-ID, decrement
retriesRemaining.  On timeout with no retries remaining: resolve the
request as Failure\x7bApduTimeout\x7d."  Responses are matched by invoke-ID
and source address; a non-matching reply is dropped as stale. -/

/-- Failure reasons for a resolved confirmed request, per the spec §7. -/
inductive CorrFailure where
  | apduTimeout
  | applicationError (code : Nat)
deriving Repr, DecidableEq

/-- Outcome of a resolved confirmed request. -/
inductive CorrOutcome where
  | success
  | failure (f : CorrFailure)
deriving Repr, DecidableEq

/-- Modelled from the spec §3: a `PendingRequest` entry of the correlator
(destination addresses are abstracted to numbers). -/
structure PendingRequest where
  invokeId : Nat
  destination : Nat
  retriesRemaining : Nat
deriving Repr, DecidableEq

/-- Correlator state: the invoke-ID counter, the pending set, the log of
transmitted datagrams (invoke-ID, destination) and the resolved results. -/
structure Correlator where
  nextId : Nat
  pending : List PendingRequest
  sentLog : List (Nat × Nat)
  results : List (Nat × Nat × CorrOutcome)
deriving Repr, DecidableEq

/-- Initial correlator state. -/
def Correlator.init : Correlator :=
  { nextId := 0, pending := [], sentLog := [], results := [] }

/-- Invoke-IDs with an outstanding `PendingRequest`. -/
def Correlator.pendingIds (c : Correlator) : List Nat :=
  c.pending.map (·.invokeId)

/-- Modelled from the spec: allocate the next free invoke-ID, a monotonic
counter mod 256 skipping IDs currently pending; `none` when all 256 IDs
have an outstanding request. -/
def Correlator.allocId (c : Correlator) : Option Nat :=
  ((List.range 256).map (fun k => (c.nextId + k) % 256)).find?
    (fun id => decide (id ∉ c.pendingIds))

/-- Modelled from the spec: send a confirmed request — allocate an
invoke-ID, store a `PendingRequest` with the given retry budget, and
transmit the first datagram. -/
def Correlator.sendConfirmed (c : Correlator) (dest maxRetries : Nat) :
    Option (Nat × Correlator) :=
  match c.allocId with
  | none => none
  | some id =>
    some (id,
      { nextId := (id + 1) % 256,
        pending := ⟨id, dest, maxRetries⟩ :: c.pending,
        sentLog := c.sentLog ++ [(id, dest)],
        results := c.results })

/-- Test whether a pending entry matches an (invoke-ID, destination) pair. -/
def PendingRequest.matches (e : PendingRequest) (id dest : Nat) : Bool :=
  e.invokeId == id && e.destination == dest

/-- Modelled from the spec: a timeout fires for the pending request with
this invoke-ID and destination.  With retries remaining the same invoke-ID
is retransmitted and the budget decremented; with none remaining the
request resolves as `Failure\x7bApduTimeout\x7d` and leaves the pending set. -/
def Correlator.fireTimeout (c : Correlator) (id dest : Nat) : Correlator :=
  match c.pending.find? (fun e => e.matches id dest) with
  | none => c
  | some e =>
    if e.retriesRemaining = 0 then
      { c with pending := c.pending.filter (fun e2 => !(e2.matches id dest)),
               results := c.results ++ [(id, dest, .failure .apduTimeout)] }
    else
      { c with pending := c.pending.map (fun e2 =>
                 if e2.matches id dest then
                   { e2 with retriesRemaining := e2.retriesRemaining - 1 }
                 else e2),
               sentLog := c.sentLog ++ [(id, dest)] }

/-- Modelled from the spec: a matching inbound reply resolves the pending
request and removes it; a reply with no matching (invoke-ID, source)
pending entry is dropped as stale/misrouted. -/
def Correlator.handleResponse (c : Correlator) (id dest : Nat)
    (out : CorrOutcome) : Correlator :=
  if (c.pending.find? (fun e => e.matches id dest)).isSome then
    { c with pending := c.pending.filter (fun e2 => !(e2.matches id dest)),
             results := c.results ++ [(id, dest, out)] }
  else c

/-- External events driving the correlator. -/
inductive CorrEvent where
  | send (dest maxRetries : Nat)
  | response (id dest : Nat) (out : CorrOutcome)
  | timeout (id dest : Nat)
deriving Repr, DecidableEq

/-- One correlator transition. -/
def corrStep (c : Correlator) (e : CorrEvent) : Correlator :=
  match e with
  | .send dest mr =>
    match c.sendConfirmed dest mr with
    | none => c
    | some (_, c2) => c2
  | .response id dest out => c.handleResponse id dest out
  | .timeout id dest => c.fireTimeout id dest

/-- Run the correlator from a given state over a sequence of events. -/
def corrRunFrom (c : Correlator) (evs : List CorrEvent) : Correlator :=
  evs.foldl corrStep c

/-- Run the correlator from the initial state. -/
def corrRun (evs : List CorrEvent) : Correlator :=
  corrRunFrom Correlator.init evs

/-- Events that resolve every request currently outstanding in `c`. -/
def resolveAllEvents (c : Correlator) : List CorrEvent :=
  c.pending.map (fun e => .response e.invokeId e.destination .success)

/-! ### Service Layer: Who-Is / I-Am

Modelled from the spec §4.5: `whoIs(lowLimit, highLimit)` produces one
`DeviceRecord` per I-Am indication received in the listen window whose
instance lies in the requested range, "duplicates (same instance+address)
suppressed". -/

/-- Modelled from the spec §3 `DeviceRecord`, restricted to the fields the
Who-Is claims are about (instance number and source address). -/
structure DeviceRecord where
  instanceNumber : Nat
  address : Nat
deriving Repr, DecidableEq

/-- Modelled from the spec: collect the I-Am indications of one listen
window into device records — keep those whose instance is within
[lowLimit, highLimit] and suppress duplicate (instance, address) pairs. -/
def whoIs (lowLimit highLimit : Nat) (iams : List DeviceRecord) : List DeviceRecord :=
  (iams.filter (fun r => decide (lowLimit ≤ r.instanceNumber ∧ r.instanceNumber ≤ highLimit))).dedup

/-! ### Foreign Device Registrar

Modelled from the spec §4.3: `register(BbmdConfig)` sends a
Register-Foreign-Device request with the configured time-to-live and arms
a renewal timer at `timeToLiveSeconds * 0.8`; `unregister()` sends
time-to-live 0 and transitions to `Unregistered`, cancelling any pending
renewal. -/

/-- Modelled from the spec §3 `BbmdConfig`. -/
structure BbmdConfig where
  address : String
  port : Nat
  timeToLiveSeconds : Nat
deriving Repr, DecidableEq

/-- Registrar states, per the spec §4.3 state machine. -/
inductive RegState where
  | unregistered
  | registering
  | registered
  | renewing
  | expired
deriving Repr, DecidableEq

/-- Registrar state: lifecycle state, the absolute time the renewal timer
is armed for (if any), the active time-to-live, and the log of transmitted
Register-Foreign-Device requests as (time, time-to-live) pairs. -/
structure Registrar where
  state : RegState
  renewalAt : Option Nat
  ttl : Nat
  sent : List (Nat × Nat)
deriving Repr, DecidableEq

/-- Initial registrar state. -/
def Registrar.init : Registrar :=
  { state := .unregistered, renewalAt := none, ttl := 0, sent := [] }

/-- Modelled from the spec: the renewal timer delay, `timeToLiveSeconds *
0.8` (exact in the rationals: `ttl * 4 / 5`). -/
def renewalDelay (ttl : Nat) : Nat :=
  ttl * 4 / 5

/-- Commands driving the registrar; `tick` is a timer-service opportunity
at the given time. -/
inductive RegCmd where
  | register (cfg : BbmdConfig)
  | unregister
  | tick
deriving Repr, DecidableEq

/-- Fire the renewal timer if it is due at time `now`: retransmit
Register-Foreign-Device with the active time-to-live at the armed time and
re-arm the timer one delay later (Renewing → Registered). -/
def Registrar.fireDue (r : Registrar) (now : Nat) : Registrar :=
  match r.renewalAt with
  | none => r
  | some rt =>
    if rt ≤ now then
      { r with sent := r.sent ++ [(rt, r.ttl)], renewalAt := some (rt + renewalDelay r.ttl) }
    else r

/-- One registrar transition for a command arriving at time `t`. -/
def regStep (r : Registrar) (ev : Nat × RegCmd) : Registrar :=
  let r2 := r.fireDue ev.1
  match ev.2 with
  | .register cfg =>
    { r2 with state := .registered,
              ttl := cfg.timeToLiveSeconds,
              renewalAt := some (ev.1 + renewalDelay cfg.timeToLiveSeconds),
              sent := r2.sent ++ [(ev.1, cfg.timeToLiveSeconds)] }
  | .unregister =>
    { r2 with state := .unregistered,
              renewalAt := none,
              sent := r2.sent ++ [(ev.1, 0)] }
  | .tick => r2

/-- Run the registrar from the initial state over timestamped commands. -/
def regRun (evs : List (Nat × RegCmd)) : Registrar :=
  evs.foldl regStep Registrar.init

/-! ### Receive loop

Modelled from the spec §7: "Codec/Transport errors on a single datagram
never crash the receive loop — they are caught, counted, and the loop
continues."  Each inbound datagram yields exactly one typed outcome. -/

/-- Receive-loop state: decoded payloads delivered onward and the count of
dropped malformed datagrams. -/
structure RxLoopState where
  delivered : List PropertyValue
  droppedCount : Nat
deriving Repr

/-- Process one inbound datagram: deliver the decoded payload, or count
and drop a datagram the Codec rejects. -/
def processDatagram (s : RxLoopState) (d : List Nat) : RxLoopState :=
  match decodeApdu d with
  | some v => { s with delivered := s.delivered ++ [v] }
  | none => { s with droppedCount := s.droppedCount + 1 }

/-- Run the receive loop over a finite batch of inbound datagrams. -/
def receiveLoop (ds : List (List Nat)) : RxLoopState :=
  ds.foldl processDatagram ⟨[], 0⟩

/-! ### GUI layer, embedded from the repository sources

The following definitions are translated directly from `config.py`,
`bacnet_logic.py` and `main_app.py`.  Python strings are modelled as
`String`/`List Char`; Python string helpers (`split`, `splitlines`,
`isdigit`) are re-implemented below with their Python semantics. -/

/-- From `config.py`: the tag-name → tag-number map `TAG_MAP`. -/
def TAG_MAP : List (String × String) :=
  [("REAL (4)", "4"),
   ("UnsignedInt (2)", "2"),
   ("Boolean (1)", "1"),
   ("CharString (7)", "7"),
   ("Enumerated (9)", "9"),
   ("Null (0)", "0"),
   ("SignedInt (3)", "3"),
   ("Double (5)", "5"),
   ("OctetString (6)", "6"),
   ("Date (10)", "10"),
   ("Time (11)", "11")]

/-- From `config.py`: `HISTORY_LIMIT = 10`. -/
def HISTORY_LIMIT : Nat := 10

/-- Python `dict.get`: first binding for the key, `none` when absent. -/
def dictGet (m : List (String × String)) (k : String) : Option String :=
  match m with
  | [] => none
  | (k2, v) :: rest => if k2 = k then some v else dictGet rest k

/-- Python `str.split(sep)` for a single-character separator: split on
every occurrence, keeping empty pieces.  The accumulator holds the current
piece reversed. -/
def pySplitChar (sep : Char) : List Char → List Char → List (List Char)
  | [], cur => [cur.reverse]
  | c :: cs, cur =>
    if c = sep then cur.reverse :: pySplitChar sep cs []
    else pySplitChar sep cs (c :: cur)

/-- Python `str.split()` (no separator): split on runs of whitespace,
discarding empty pieces. -/
def pyTokens : List Char → List Char → List (List Char)
  | [], cur => if cur = [] then [] else [cur.reverse]
  | c :: cs, cur =>
    if c.isWhitespace then
      if cur = [] then pyTokens cs [] else cur.reverse :: pyTokens cs []
    else pyTokens cs (c :: cur)

/-- Python `str.splitlines()` restricted to `\n` line breaks: split on
newlines with no trailing empty line. -/
def pyLines : List Char → List Char → List (List Char)
  | [], cur => if cur = [] then [] else [cur.reverse]
  | c :: cs, cur =>
    if c = '\n' then cur.reverse :: pyLines cs []
    else pyLines cs (c :: cur)

/-- Python `str.isdigit()` (ASCII fragment): non-empty and all digits. -/
def pyIsdigit (s : List Char) : Bool :=
  !s.isEmpty && s.all Char.isDigit

/-- The write-tab inputs read by `execute_bacnet_command` for
`command_type == 'write'` in `bacnet_logic.py`. -/
structure WriteInputs where
  deviceIdentifier : String
  writePropertyField : String
  writeValue : String
  writeTag : String
  writePriority : String
deriving Repr, DecidableEq

/-- Outcome of preparing a write command in the GUI: a client-side error
dialog (no command started), or a subprocess dispatch of the given argument
vector (network I/O via `bacwp.exe`). -/
inductive WriteOutcome where
  | uiError (msg : String)
  | dispatch (command : List String)
deriving Repr, DecidableEq

/-- From `bacnet_logic.py`, `execute_bacnet_command`, `command_type ==
'write'` branch: require all four write fields non-empty, split the
property field on `;` into exactly three parts, look the tag name up in
`TAG_MAP` (a falsy result is an error), then dispatch
`bacwp.exe device objType objInst propId priority -1 tagValue value`.
The priority string is passed through unexamined. -/
def buildWriteCommand (inp : WriteInputs) : WriteOutcome :=
  if inp.writePropertyField = "" ∨ inp.writeValue = "" ∨ inp.writeTag = "" ∨
      inp.writePriority = "" then
    .uiError "All Write Property fields are required."
  else
    match pySplitChar ';' inp.writePropertyField.toList [] with
    | [objType, objInst, propId] =>
      match dictGet TAG_MAP inp.writeTag with
      | none => .uiError "Invalid tag name selected"
      | some tagValue =>
        if tagValue = "" then .uiError "Invalid tag name selected"
        else .dispatch ["bacwp.exe", inp.deviceIdentifier,
                        String.mk objType, String.mk objInst, String.mk propId,
                        inp.writePriority, "-1", tagValue, inp.writeValue]
    | _ => .uiError "Invalid format for Write Property. Use objType;inst;prop."

/-- From `main_app.py`, `update_history`: a falsy (empty) value leaves the
history untouched; otherwise the value is removed from the key's list if
present, inserted at index 0, and the list truncated to `HISTORY_LIMIT`.
The history dict is modelled as a total map with default `[]` (matching
`if field_key not in self.history: self.history[field_key] = []`). -/
def update_history (h : String → List String) (k v : String) : String → List String :=
  if v = "" then h
  else fun k2 =>
    if k2 = k then (v :: (h k).erase v).take HISTORY_LIMIT
    else h k2

/-- From `main_app.py`, `parse_and_populate_device_tree`, body of the line
loop: a line whose whitespace tokens number at least 2 and whose first
token is all digits yields the entry `(parts[0], parts[2])`; reading
`parts[2]` raises `IndexError` when fewer than three tokens exist; any
other line is ignored. -/
def insertDeviceLines : List (List Char) → Except String (List (List Char × List Char))
  | [] => .ok []
  | line :: rest =>
    let parts := pyTokens line []
    if 2 ≤ parts.length ∧ pyIsdigit (parts.headD []) then
      match parts.get? 2 with
      | some ip =>
        match insertDeviceLines rest with
        | .ok entries => .ok ((parts.headD [], ip) :: entries)
        | .error e => .error e
      | none => .error "IndexError: list index out of range"
    else insertDeviceLines rest

/-- From `main_app.py`, `parse_and_populate_device_tree`: split the stdout
text into lines and insert a device-tree entry per parseable line; the
result is the inserted (instance, ip address) entries, or the uncaught
Python exception. -/
def parse_and_populate_device_tree (output : String) :
    Except String (List (List Char × List Char)) :=
  insertDeviceLines (pyLines output.toList [])

/-- A sample `PropertyValue` exercising every primitive application tag of
the data model (including BitString and ObjectIdentifier), nesting,
extended tag numbers (20) and the extended length form (a 300-byte octet
string). -/
def sampleValue : PropertyValue :=
  .constructed 0
    [.null, .boolean true, .unsignedInt 4194303, .signedInt (-300),
     .real 1078530011, .double 4614256656552045848, .octetString [0, 127, 255],
     .characterString [72, 101, 108, 108, 111], .bitString 3 [160],
     .enumerated 4, .date 125 10 12 7, .time 23 59 59 99,
     .objectIdentifier 8 4000037,
     .constructed 20 [.unsignedInt 300, .octetString (List.replicate 300 7)]]

/-! ## Lemmas and theorems -/

/-! ### Byte-helper lemmas -/

theorem bytesToNat_from (a : Nat) (bs : List Nat) :
    bs.foldl (fun acc b => acc * 256 + b) a = a * 256 ^ bs.length + bytesToNat bs := by
  induction bs generalizing a with
  | nil => simp [bytesToNat]
  | cons b bs ih =>
    simp only [List.foldl_cons, bytesToNat, List.length_cons]
    rw [ih (a * 256 + b), ih (0 * 256 + b)]
    ring

theorem bytesToNat_append (xs ys : List Nat) :
    bytesToNat (xs ++ ys) = bytesToNat xs * 256 ^ ys.length + bytesToNat ys := by
  unfold bytesToNat
  rw [List.foldl_append]
  exact bytesToNat_from _ ys

theorem bytesToNat_snoc (xs : List Nat) (b : Nat) :
    bytesToNat (xs ++ [b]) = bytesToNat xs * 256 + b := by
  rw [bytesToNat_append]
  simp [bytesToNat]

theorem bytesToNat_natToBytesAux (fuel n : Nat) (h : n ≤ fuel) :
    bytesToNat (natToBytesAux fuel n) = n := by
  induction fuel generalizing n with
  | zero =>
    have : n = 0 := Nat.le_zero.mp h
    simp [natToBytesAux, bytesToNat, this]
  | succ fuel ih =>
    by_cases hn : n < 256
    · simp [natToBytesAux, hn, bytesToNat]
    · have hrec : n / 256 ≤ fuel := by omega
      simp only [natToBytesAux, if_neg hn]
      rw [bytesToNat_snoc, ih _ hrec]
      omega

theorem bytesToNat_natToBytes (n : Nat) : bytesToNat (natToBytes n) = n :=
  bytesToNat_natToBytesAux n n le_rfl

theorem length_natToBytesAux_le (fuel : Nat) :
    ∀ n k, 1 ≤ k → n < 256 ^ k → (natToBytesAux fuel n).length ≤ k := by
  induction fuel with
  | zero => intro n k hk _; simpa [natToBytesAux] using hk
  | succ fuel ih =>
    intro n k hk hn
    by_cases hsmall : n < 256
    · simpa [natToBytesAux, hsmall] using hk
    · have hk2 : 2 ≤ k := by
        by_contra hlt
        have : k = 1 := by omega
        subst this
        simp at hn
        omega
      have hdiv : n / 256 < 256 ^ (k - 1) := by
        have h256 : (0:Nat) < 256 := by norm_num
        rw [Nat.div_lt_iff_lt_mul h256]
        calc n < 256 ^ k := hn
        _ = 256 ^ (k - 1) * 256 := by
              rw [← pow_succ]
              congr 1
              omega
      have := ih (n / 256) (k - 1) (by omega) hdiv
      simp only [natToBytesAux, if_neg hsmall, List.length_append, List.length_cons,
        List.length_nil]
      omega

theorem length_natToBytes_le (n k : Nat) (hk : 1 ≤ k) (hn : n < 256 ^ k) :
    (natToBytes n).length ≤ k :=
  length_natToBytesAux_le n n k hk hn

theorem length_natToBytesFixed (w n : Nat) : (natToBytesFixed w n).length = w := by
  induction w generalizing n with
  | zero => rfl
  | succ w ih => simp [natToBytesFixed, ih]

theorem bytesToNat_natToBytesFixed (w : Nat) :
    ∀ n, bytesToNat (natToBytesFixed w n) = n % 256 ^ w := by
  induction w with
  | zero => intro n; simp [natToBytesFixed, bytesToNat, Nat.mod_one]
  | succ w ih =>
    intro n
    simp only [natToBytesFixed]
    rw [bytesToNat_snoc, ih]
    have h1 : 256 ^ (w + 1) = 256 * 256 ^ w := by
      rw [pow_succ]; ring
    rw [h1, Nat.mod_mul]
    ring

theorem bytesToNat_natToBytesFixed_eq (w n : Nat) (h : n < 256 ^ w) :
    bytesToNat (natToBytesFixed w n) = n := by
  rw [bytesToNat_natToBytesFixed, Nat.mod_eq_of_lt h]

theorem bytesToNat_lt (bs : List Nat) (h : ∀ b ∈ bs, b < 256) :
    bytesToNat bs < 256 ^ bs.length := by
  induction bs with
  | nil => simp [bytesToNat]
  | cons b bs ih =>
    have hb : b < 256 := h b (by simp)
    have hrest : bytesToNat bs < 256 ^ bs.length := ih (fun x hx => h x (by simp [hx]))
    have hsplit : bytesToNat (b :: bs) = b * 256 ^ bs.length + bytesToNat bs := by
      have := bytesToNat_append [b] bs
      simpa [bytesToNat] using this
    rw [hsplit]
    calc b * 256 ^ bs.length + bytesToNat bs
        < b * 256 ^ bs.length + 256 ^ bs.length := by omega
      _ = (b + 1) * 256 ^ bs.length := by ring
      _ ≤ 256 * 256 ^ bs.length := by
          have : b + 1 ≤ 256 := by omega
          exact Nat.mul_le_mul_right _ this
      _ = 256 ^ (b :: bs).length := by
          rw [List.length_cons, pow_succ]
          ring

theorem intToBytesAux_ne_nil (fuel : Nat) (i : Int) : intToBytesAux fuel i ≠ [] := by
  cases fuel with
  | zero => simp [intToBytesAux]
  | succ fuel => by_cases h : -128 ≤ i ∧ i < 128 <;> simp [intToBytesAux, h]

theorem intToBytesAux_bytes_lt (fuel : Nat) :
    ∀ i : Int, ∀ b ∈ intToBytesAux fuel i, b < 256 := by
  induction fuel with
  | zero =>
    intro i b hb
    simp only [intToBytesAux, List.mem_singleton] at hb
    omega
  | succ fuel ih =>
    intro i b hb
    by_cases h : -128 ≤ i ∧ i < 128
    · simp only [intToBytesAux, if_pos h, List.mem_singleton] at hb
      omega
    · simp only [intToBytesAux, if_neg h, List.mem_append, List.mem_singleton] at hb
      rcases hb with hb | hb
      · exact ih _ b hb
      · omega

theorem length_intToBytesAux_le (fuel : Nat) :
    ∀ (i : Int) (k : Nat), 1 ≤ k → -(2 ^ (8 * k - 1)) ≤ i → i < 2 ^ (8 * k - 1) →
      (intToBytesAux fuel i).length ≤ k := by
  induction fuel with
  | zero => intro i k hk _ _; simpa [intToBytesAux] using hk
  | succ fuel ih =>
    intro i k hk hlo hhi
    by_cases h : -128 ≤ i ∧ i < 128
    · simpa [intToBytesAux, h] using hk
    · have hk2 : 2 ≤ k := by
        by_contra hc
        have hk1 : k = 1 := by omega
        subst hk1
        norm_num at hlo hhi
        omega
      have hpow : (2:Int) ^ (8 * k - 1) = 256 * 2 ^ (8 * (k - 1) - 1) := by
        have hexp : 8 * k - 1 = (8 * (k - 1) - 1) + 8 := by omega
        rw [hexp, pow_add]
        ring
      rw [hpow] at hlo hhi
      have h1 : -(2 ^ (8 * (k - 1) - 1)) ≤ i / 256 := by omega
      have h2 : i / 256 < 2 ^ (8 * (k - 1) - 1) := by omega
      have := ih (i / 256) (k - 1) (by omega) h1 h2
      simp only [intToBytesAux, if_neg h, List.length_append, List.length_cons,
        List.length_nil]
      omega

theorem bytesToInt_single (b : Nat) :
    bytesToInt [b] = if b < 128 then (b : Int) else (b : Int) - 256 := by
  simp only [bytesToInt, bytesToNat, List.foldl_cons, List.foldl_nil, List.length_cons,
    List.length_nil]
  norm_num

theorem bytesToInt_intToBytesAux (fuel : Nat) :
    ∀ i : Int, i.natAbs ≤ fuel → bytesToInt (intToBytesAux fuel i) = i := by
  induction fuel with
  | zero =>
    intro i h
    have hz : i = 0 := by omega
    subst hz
    simp [intToBytesAux, bytesToInt_single]
  | succ fuel ih =>
    intro i h
    by_cases hsmall : -128 ≤ i ∧ i < 128
    · simp only [intToBytesAux, if_pos hsmall]
      rw [bytesToInt_single]
      split <;> omega
    · have hq : (i / 256).natAbs ≤ fuel := by omega
      have hrt := ih (i / 256) hq
      simp only [intToBytesAux, if_neg hsmall]
      generalize hgen : intToBytesAux fuel (i / 256) = hs at hrt
      have hne : hs ≠ [] := by rw [← hgen]; exact intToBytesAux_ne_nil _ _
      have hlen : 1 ≤ hs.length := List.length_pos.mpr hne
      have hbytes : ∀ b ∈ hs, b < 256 := by
        rw [← hgen]; exact intToBytesAux_bytes_lt fuel (i / 256)
      have hub : bytesToNat hs < 256 ^ hs.length := bytesToNat_lt hs hbytes
      have hub2 : bytesToNat hs < 2 ^ (8 * hs.length) := by
        calc bytesToNat hs < 256 ^ hs.length := hub
          _ = 2 ^ (8 * hs.length) := by
              rw [show (256:Nat) = 2 ^ 8 by norm_num, ← pow_mul]
      rw [bytesToInt] at hrt ⊢
      rw [bytesToNat_snoc]
      simp only [List.length_append, List.length_cons, List.length_nil]
      obtain ⟨m, hm1, hm2⟩ : ∃ m, 8 * hs.length - 1 = m ∧ 8 * hs.length = m + 1 :=
        ⟨8 * hs.length - 1, rfl, by omega⟩
      have h256 : (2:Nat) ^ 8 = 256 := by norm_num
      have e1 : 2 ^ (8 * (hs.length + 1) - 1) = 256 * 2 ^ m := by
        have hexp : 8 * (hs.length + 1) - 1 = m + 8 := by omega
        rw [hexp, pow_add, h256]
        ring
      have e2 : 2 ^ (8 * (hs.length + 1)) = 256 * 2 ^ (m + 1) := by
        have hexp : 8 * (hs.length + 1) = (m + 1) + 8 := by omega
        rw [hexp, pow_add, h256]
        ring
      rw [hm1, hm2] at hrt
      rw [hm2] at hub2
      rw [e1, e2]
      have e3 : (2:Nat) ^ (m + 1) = 2 * 2 ^ m := by
        rw [pow_succ]
        ring
      rw [e3] at hrt hub2 ⊢
      generalize (2:Nat) ^ m = P at hrt hub2 ⊢
      split at hrt <;> split <;> push_cast at hrt ⊢ <;> omega

theorem bytesToInt_intToBytes (i : Int) : bytesToInt (intToBytes i) = i :=
  bytesToInt_intToBytesAux _ i le_rfl

theorem length_intToBytes_le (i : Int) (k : Nat) (hk : 1 ≤ k)
    (hlo : -(2 ^ (8 * k - 1)) ≤ i) (hhi : i < 2 ^ (8 * k - 1)) :
    (intToBytes i).length ≤ k :=
  length_intToBytesAux_le _ i k hk hlo hhi

/-! ### Tag-header and length-field lemmas -/

theorem decodeTagHeader_encodeTagByte (t : Nat) (c : Bool) (lvt : Nat) (hlvt : lvt ≤ 7)
    (rest : List Nat) :
    decodeTagHeader (encodeTagByte t c lvt ++ rest) = some (t, c, lvt, rest) := by
  cases c with
  | false =>
    by_cases ht : t ≤ 14
    · have hb : encodeTagByte t false lvt = [t * 16 + lvt] := by
        simp [encodeTagByte, ht]
      rw [hb]
      simp only [List.cons_append, decodeTagHeader]
      have hne : ¬ (t * 16 + lvt) / 16 = 15 := by omega
      have h1 : (t * 16 + lvt) / 16 = t := by omega
      have h2 : (t * 16 + lvt) / 8 % 2 = 0 := by omega
      have h3 : (t * 16 + lvt) % 8 = lvt := by omega
      rw [if_neg hne, h1, h2, h3]
      simp
    · have hb : encodeTagByte t false lvt = [240 + lvt, t] := by
        simp [encodeTagByte, ht]
      rw [hb]
      simp only [List.cons_append, decodeTagHeader]
      have hpos : (240 + lvt) / 16 = 15 := by omega
      have h2 : (240 + lvt) / 8 % 2 = 0 := by omega
      have h3 : (240 + lvt) % 8 = lvt := by omega
      rw [if_pos hpos, h2, h3]
      simp
  | true =>
    by_cases ht : t ≤ 14
    · have hb : encodeTagByte t true lvt = [t * 16 + 8 + lvt] := by
        simp [encodeTagByte, ht]
      rw [hb]
      simp only [List.cons_append, decodeTagHeader]
      have hne : ¬ (t * 16 + 8 + lvt) / 16 = 15 := by omega
      have h1 : (t * 16 + 8 + lvt) / 16 = t := by omega
      have h2 : (t * 16 + 8 + lvt) / 8 % 2 = 1 := by omega
      have h3 : (t * 16 + 8 + lvt) % 8 = lvt := by omega
      rw [if_neg hne, h1, h2, h3]
      simp
    · have hb : encodeTagByte t true lvt = [240 + 8 + lvt, t] := by
        simp [encodeTagByte, ht]
      rw [hb]
      simp only [List.cons_append, decodeTagHeader]
      have hpos : (240 + 8 + lvt) / 16 = 15 := by omega
      have h2 : (240 + 8 + lvt) / 8 % 2 = 1 := by omega
      have h3 : (240 + 8 + lvt) % 8 = lvt := by omega
      rw [if_pos hpos, h2, h3]
      simp

theorem lenField_fst_le (n : Nat) : (lenField n).1 ≤ 5 := by
  unfold lenField
  split_ifs <;> simp <;> omega

theorem natToBytesFixed_four (n : Nat) :
    natToBytesFixed 4 n =
      [n / 256 / 256 / 256 % 256, n / 256 / 256 % 256, n / 256 % 256, n % 256] := by
  simp [natToBytesFixed]

theorem decodeLen_lenField (n : Nat) (hn : n < 4294967296) (rest : List Nat) :
    decodeLen (lenField n).1 ((lenField n).2 ++ rest) = some (n, rest) := by
  by_cases h1 : n ≤ 4
  · simp only [lenField, if_pos h1, List.nil_append, decodeLen]
  · by_cases h2 : n ≤ 253
    · simp only [lenField, if_neg h1, if_pos h2, List.cons_append, List.nil_append, decodeLen]
      simp [h2]
    · by_cases h3 : n ≤ 65535
      · simp only [lenField, if_neg h1, if_neg h2, if_pos h3, List.cons_append,
          List.nil_append, decodeLen]
        have hval : n / 256 * 256 + n % 256 = n := by omega
        simp [hval]
      · simp only [lenField, if_neg h1, if_neg h2, if_neg h3, natToBytesFixed_four,
          List.cons_append, List.nil_append, decodeLen]
        have hval : bytesToNat
            [n / 256 / 256 / 256 % 256, n / 256 / 256 % 256, n / 256 % 256, n % 256] = n := by
          simp only [bytesToNat, List.foldl_cons, List.foldl_nil]
          omega
        simp [hval]

/-! ### Codec round-trip lemmas -/

theorem validList_mem (es : List PropertyValue) (h : validList es = true) :
    ∀ e ∈ es, e.validb = true := by
  induction es with
  | nil => intro e he; simp at he
  | cons x xs ih =>
    rw [validList, Bool.and_eq_true] at h
    intro e he
    rcases List.mem_cons.mp he with rfl | he2
    · exact h.1
    · exact ih h.2 e he2

theorem eq_constructed_of_appTag_gt (v : PropertyValue) (h : ¬ v.appTag ≤ 14) :
    ∃ t es, v = .constructed t es := by
  cases v
  case constructed t es => exact ⟨t, es, rfl⟩
  all_goals exact absurd (by simp [PropertyValue.appTag]) h

theorem encodeValue_prim (v : PropertyValue) (h : v.appTag ≤ 14) :
    encodeValue v = encodeTagByte v.appTag false (lenField v.contentBytes.length).1 ++
      ((lenField v.contentBytes.length).2 ++ v.contentBytes) := by
  cases v
  case constructed t es => exact absurd h (by simp [PropertyValue.appTag])
  all_goals simp [encodeValue, List.append_assoc]

theorem length_encodeTagByte_pos (t : Nat) (c : Bool) (lvt : Nat) :
    1 ≤ (encodeTagByte t c lvt).length := by
  unfold encodeTagByte
  split_ifs <;> simp

theorem one_le_length_encodeValue (v : PropertyValue) : 1 ≤ (encodeValue v).length := by
  by_cases h : v.appTag ≤ 14
  · rw [encodeValue_prim v h]
    have := length_encodeTagByte_pos v.appTag false (lenField v.contentBytes.length).1
    simp only [List.length_append]
    omega
  · obtain ⟨t, es, rfl⟩ := eq_constructed_of_appTag_gt v h
    rw [encodeValue]
    have := length_encodeTagByte_pos t true 6
    simp only [List.length_append]
    omega

theorem contentBytes_length_lt (v : PropertyValue) (hv : v.validb = true) :
    v.contentBytes.length < 4294967296 := by
  have h256 : (256:Nat) ^ 4 = 4294967296 := by norm_num
  cases v with
  | unsignedInt n =>
    simp only [PropertyValue.validb, decide_eq_true_eq] at hv
    have := length_natToBytes_le n 4 (by norm_num) (by norm_num; omega)
    simp only [PropertyValue.contentBytes]
    omega
  | signedInt i =>
    simp only [PropertyValue.validb, decide_eq_true_eq] at hv
    have h31 : (2:Int) ^ (8 * 4 - 1) = 2147483648 := by norm_num
    have := length_intToBytes_le i 4 (by norm_num) (by omega) (by omega)
    simp only [PropertyValue.contentBytes]
    omega
  | enumerated n =>
    simp only [PropertyValue.validb, decide_eq_true_eq] at hv
    have := length_natToBytes_le n 4 (by norm_num) (by norm_num; omega)
    simp only [PropertyValue.contentBytes]
    omega
  | octetString bs =>
    simp only [PropertyValue.validb, Bool.and_eq_true, decide_eq_true_eq] at hv
    simpa [PropertyValue.contentBytes] using hv.2
  | characterString bs =>
    simp only [PropertyValue.validb, Bool.and_eq_true, decide_eq_true_eq] at hv
    simpa [PropertyValue.contentBytes] using hv.2
  | bitString unused bs =>
    simp only [PropertyValue.validb, Bool.and_eq_true, decide_eq_true_eq] at hv
    simp only [PropertyValue.contentBytes, List.length_cons]
    omega
  | real bits => simp [PropertyValue.contentBytes, length_natToBytesFixed]
  | double bits => simp [PropertyValue.contentBytes, length_natToBytesFixed]
  | objectIdentifier t i => simp [PropertyValue.contentBytes, length_natToBytesFixed]
  | null => simp [PropertyValue.contentBytes]
  | boolean b => simp [PropertyValue.contentBytes]
  | date y m d w => simp [PropertyValue.contentBytes]
  | time h m s hu => simp [PropertyValue.contentBytes]
  | constructed t es => simp [PropertyValue.contentBytes]

theorem parseContent_contentBytes (v : PropertyValue) (hv : v.validb = true)
    (happ : v.appTag ≤ 14) :
    parseContent v.appTag v.contentBytes = some v := by
  cases v with
  | null => rfl
  | boolean b => cases b <;> rfl
  | unsignedInt n =>
    simp [PropertyValue.appTag, PropertyValue.contentBytes, parseContent, bytesToNat_natToBytes]
  | signedInt i =>
    simp [PropertyValue.appTag, PropertyValue.contentBytes, parseContent, bytesToInt_intToBytes]
  | real bits =>
    simp only [PropertyValue.validb, decide_eq_true_eq] at hv
    have h4 : bits < 256 ^ 4 := by norm_num; omega
    simp [PropertyValue.appTag, PropertyValue.contentBytes, parseContent,
      length_natToBytesFixed, bytesToNat_natToBytesFixed_eq 4 bits h4]
  | double bits =>
    simp only [PropertyValue.validb, decide_eq_true_eq] at hv
    have h8 : bits < 256 ^ 8 := by norm_num; omega
    simp [PropertyValue.appTag, PropertyValue.contentBytes, parseContent,
      length_natToBytesFixed, bytesToNat_natToBytesFixed_eq 8 bits h8]
  | octetString bs => rfl
  | characterString bs => rfl
  | bitString unused bs => rfl
  | enumerated n =>
    simp [PropertyValue.appTag, PropertyValue.contentBytes, parseContent, bytesToNat_natToBytes]
  | date y m d w => rfl
  | time h m s hu => rfl
  | objectIdentifier t i =>
    simp only [PropertyValue.validb, Bool.and_eq_true, decide_eq_true_eq] at hv
    have h4 : t * 4194304 + i < 256 ^ 4 := by norm_num; omega
    have hdiv : (t * 4194304 + i) / 4194304 = t := by omega
    have hmod : (t * 4194304 + i) % 4194304 = i := by omega
    simp [PropertyValue.appTag, PropertyValue.contentBytes, parseContent,
      length_natToBytesFixed, bytesToNat_natToBytesFixed_eq 4 _ h4, hdiv, hmod]
  | constructed t es => exact absurd happ (by simp [PropertyValue.appTag])

theorem decodeValue_prim_step (tag : Nat) (c : List Nat) (f : Nat) (rest : List Nat)
    (hc : c.length < 4294967296) :
    decodeValue (f + 1)
        (encodeTagByte tag false (lenField c.length).1 ++
          ((lenField c.length).2 ++ (c ++ rest))) =
      match parseContent tag c with
      | some v => some (v, rest)
      | none => none := by
  simp only [decodeValue]
  rw [decodeTagHeader_encodeTagByte tag false (lenField c.length).1
    (le_trans (lenField_fst_le _) (by norm_num)) ((lenField c.length).2 ++ (c ++ rest))]
  simp only [Bool.false_eq_true, if_false]
  rw [decodeLen_lenField c.length hc (c ++ rest)]
  have hle : c.length ≤ (c ++ rest).length := by
    simp [List.length_append]
  dsimp only
  rw [if_pos hle, List.take_left, List.drop_left]

theorem decodeTagHeader_encodeValue_not_closing (v : PropertyValue) (rest : List Nat) :
    ∃ t2 c2 lvt2 rest2,
      decodeTagHeader (encodeValue v ++ rest) = some (t2, c2, lvt2, rest2) ∧
        ¬(c2 = true ∧ lvt2 = 7) := by
  by_cases h : v.appTag ≤ 14
  · rw [encodeValue_prim v h, List.append_assoc]
    exact ⟨v.appTag, false, (lenField v.contentBytes.length).1,
      ((lenField v.contentBytes.length).2 ++ v.contentBytes) ++ rest,
      decodeTagHeader_encodeTagByte _ _ _
        (le_trans (lenField_fst_le _) (by norm_num)) _,
      by simp⟩
  · obtain ⟨t, es, rfl⟩ := eq_constructed_of_appTag_gt v h
    rw [encodeValue, List.append_assoc, List.append_assoc]
    exact ⟨t, true, 6, encodeList es ++ (encodeTagByte t true 7 ++ rest),
      decodeTagHeader_encodeTagByte t true 6 (by norm_num) _,
      by simp⟩

theorem decodeSeq_encodeList (t : Nat) (es : List PropertyValue)
    (IH : ∀ e ∈ es, ∀ fuel rest, (encodeValue e).length ≤ fuel →
        decodeValue fuel (encodeValue e ++ rest) = some (e, rest)) :
    ∀ fuel rest, (encodeList es).length + 1 ≤ fuel →
      decodeSeq fuel t (encodeList es ++ (encodeTagByte t true 7 ++ rest)) =
        some (es, rest) := by
  induction es with
  | nil =>
    intro fuel rest hfuel
    obtain ⟨f, rfl⟩ : ∃ f, fuel = f + 1 := ⟨fuel - 1, by omega⟩
    simp only [encodeList, List.nil_append, decodeSeq]
    rw [decodeTagHeader_encodeTagByte t true 7 (by norm_num) rest]
    simp
  | cons e es ih =>
    intro fuel rest hfuel
    obtain ⟨f, rfl⟩ : ∃ f, fuel = f + 1 := ⟨fuel - 1, by omega⟩
    have hlen1 : 1 ≤ (encodeValue e).length := one_le_length_encodeValue e
    simp only [encodeList, List.length_append] at hfuel
    have hIHe := IH e (by simp)
    have hIHes : ∀ x ∈ es, ∀ fuel rest, (encodeValue x).length ≤ fuel →
        decodeValue fuel (encodeValue x ++ rest) = some (x, rest) :=
      fun x hx => IH x (by simp [hx])
    obtain ⟨t2, c2, lvt2, rest2, hhd, hnc⟩ :=
      decodeTagHeader_encodeValue_not_closing e
        (encodeList es ++ (encodeTagByte t true 7 ++ rest))
    simp only [encodeList, List.append_assoc, decodeSeq]
    rw [hhd]
    dsimp only
    rw [if_neg hnc]
    rw [hIHe f (encodeList es ++ (encodeTagByte t true 7 ++ rest)) (by omega)]
    dsimp only
    rw [ih hIHes f rest (by omega)]

theorem decodeValue_encodeValue_sized :
    ∀ (n : Nat) (v : PropertyValue), sizeOf v ≤ n → v.validb = true →
      ∀ fuel rest, (encodeValue v).length ≤ fuel →
        decodeValue fuel (encodeValue v ++ rest) = some (v, rest) := by
  intro n
  induction n with
  | zero =>
    intro v hsz
    exfalso
    cases v <;> simp at hsz
  | succ n ihn =>
    intro v hsz hv fuel rest hfuel
    by_cases happ : v.appTag ≤ 14
    · have hclen : v.contentBytes.length < 4294967296 := contentBytes_length_lt v hv
      have h1 : 1 ≤ fuel := le_trans (one_le_length_encodeValue v) hfuel
      obtain ⟨f, rfl⟩ : ∃ f, fuel = f + 1 := ⟨fuel - 1, by omega⟩
      rw [encodeValue_prim v happ, List.append_assoc, List.append_assoc]
      rw [decodeValue_prim_step v.appTag v.contentBytes f rest hclen]
      rw [parseContent_contentBytes v hv happ]
    · obtain ⟨t, es, rfl⟩ := eq_constructed_of_appTag_gt v happ
      have hvs : validList es = true := by
        simp only [PropertyValue.validb, Bool.and_eq_true] at hv
        exact hv.2
      have hIH : ∀ e ∈ es, ∀ fuel rest, (encodeValue e).length ≤ fuel →
          decodeValue fuel (encodeValue e ++ rest) = some (e, rest) := by
        intro e he
        have hse : sizeOf e < sizeOf es := List.sizeOf_lt_of_mem he
        have hszc : sizeOf e ≤ n := by
          simp only [PropertyValue.constructed.sizeOf_spec] at hsz
          omega
        exact ihn e hszc (validList_mem es hvs e he)
      have hopen : 1 ≤ (encodeTagByte t true 6).length := length_encodeTagByte_pos t true 6
      have hclose : 1 ≤ (encodeTagByte t true 7).length := length_encodeTagByte_pos t true 7
      rw [encodeValue] at hfuel ⊢
      simp only [List.length_append] at hfuel
      obtain ⟨f, rfl⟩ : ∃ f, fuel = f + 1 := ⟨fuel - 1, by omega⟩
      rw [List.append_assoc, List.append_assoc]
      simp only [decodeValue]
      rw [decodeTagHeader_encodeTagByte t true 6 (by norm_num) _]
      dsimp only
      simp only [eq_self_iff_true, if_true]
      rw [decodeSeq_encodeList t es hIH f rest (by omega)]

theorem decodeValue_encodeValue (v : PropertyValue) (hv : v.validb = true)
    (fuel : Nat) (rest : List Nat) (hfuel : (encodeValue v).length ≤ fuel) :
    decodeValue fuel (encodeValue v ++ rest) = some (v, rest) :=
  decodeValue_encodeValue_sized (sizeOf v) v le_rfl hv fuel rest hfuel

theorem decodeApdu_encodeApdu (v : PropertyValue) (hv : v.validb = true) :
    decodeApdu (encodeApdu v) = some v := by
  unfold decodeApdu encodeApdu
  have h := decodeValue_encodeValue v hv (encodeValue v).length [] le_rfl
  rw [List.append_nil] at h
  rw [h]

/-! ### Correlator lemmas -/

theorem allocId_not_pending (c : Correlator) (id : Nat) (h : c.allocId = some id) :
    id ∉ c.pendingIds := by
  have := List.find?_some h
  simpa using this

theorem sendConfirmed_eq (c : Correlator) (dest mr id : Nat) (c2 : Correlator)
    (h : c.sendConfirmed dest mr = some (id, c2)) :
    c.allocId = some id ∧
      c2 = { nextId := (id + 1) % 256,
             pending := ⟨id, dest, mr⟩ :: c.pending,
             sentLog := c.sentLog ++ [(id, dest)],
             results := c.results } := by
  unfold Correlator.sendConfirmed at h
  cases ha : c.allocId with
  | none => rw [ha] at h; cases h
  | some id2 =>
    rw [ha] at h
    simp only [Option.some.injEq, Prod.mk.injEq] at h
    obtain ⟨h1, h2⟩ := h
    subst h1
    subst h2
    exact ⟨rfl, rfl⟩

theorem matches_self (id dest r : Nat) :
    (PendingRequest.mk id dest r).matches id dest = true := by
  simp [PendingRequest.matches]

theorem not_matches_of_not_pending (c : Correlator) (id dest : Nat)
    (h : id ∉ c.pendingIds) :
    ∀ e ∈ c.pending, e.matches id dest = false := by
  intro e he
  have hne : e.invokeId ≠ id := by
    intro heq
    exact h (List.mem_map.mpr ⟨e, he, heq⟩)
  simp [PendingRequest.matches, hne]

theorem pendingIds_map_retry (l : List PendingRequest) (id dest : Nat) :
    (l.map (fun e2 => if e2.matches id dest then
        { e2 with retriesRemaining := e2.retriesRemaining - 1 } else e2)).map
      (·.invokeId) = l.map (·.invokeId) := by
  induction l with
  | nil => rfl
  | cons x xs ih =>
    simp only [List.map_cons, ih]
    congr 1
    split <;> rfl

theorem handleResponse_pending (c : Correlator) (id dest : Nat) (out : CorrOutcome) :
    (c.handleResponse id dest out).pending =
      c.pending.filter (fun e2 => !(e2.matches id dest)) := by
  unfold Correlator.handleResponse
  split
  · rfl
  · rename_i hfind
    rw [Eq.comm, List.filter_eq_self]
    intro e he
    cases hm : e.matches id dest with
    | false => simp
    | true =>
      exfalso
      apply hfind
      cases hfo : c.pending.find? (fun e => e.matches id dest) with
      | some x => rfl
      | none => exact absurd hm (by simpa using List.find?_eq_none.mp hfo e he)

theorem pendingIds_corrStep_nodup (c : Correlator) (e : CorrEvent)
    (h : c.pendingIds.Nodup) : (corrStep c e).pendingIds.Nodup := by
  cases e with
  | send dest mr =>
    simp only [corrStep]
    cases hsend : c.sendConfirmed dest mr with
    | none => exact h
    | some pr =>
      obtain ⟨id, c2⟩ := pr
      obtain ⟨ha, rfl⟩ := sendConfirmed_eq c dest mr id c2 hsend
      have hid : id ∉ c.pendingIds := allocId_not_pending c id ha
      simp only [Correlator.pendingIds, List.map_cons]
      exact List.nodup_cons.mpr ⟨hid, h⟩
  | response id dest out =>
    simp only [corrStep]
    simp only [Correlator.pendingIds] at h ⊢
    rw [handleResponse_pending]
    exact ((List.filter_sublist _).map _).nodup h
  | timeout id dest =>
    simp only [corrStep, Correlator.fireTimeout]
    simp only [Correlator.pendingIds] at h ⊢
    cases hfind : c.pending.find? (fun e => e.matches id dest) with
    | none => exact h
    | some e2 =>
      dsimp only
      by_cases hr : e2.retriesRemaining = 0
      · rw [if_pos hr]
        dsimp only
        exact ((List.filter_sublist _).map _).nodup h
      · rw [if_neg hr]
        dsimp only
        rw [pendingIds_map_retry]
        exact h

theorem corrRunFrom_nodup (evs : List CorrEvent) :
    ∀ c : Correlator, c.pendingIds.Nodup → (corrRunFrom c evs).pendingIds.Nodup := by
  induction evs with
  | nil => exact fun c h => h
  | cons e evs ih => exact fun c h => ih _ (pendingIds_corrStep_nodup c e h)

theorem corrRun_nodup (evs : List CorrEvent) : (corrRun evs).pendingIds.Nodup :=
  corrRunFrom_nodup evs Correlator.init
    (by simp [Correlator.init, Correlator.pendingIds])

theorem allocId_isSome (c : Correlator) (h : c.pending.length ≤ 255) :
    c.allocId.isSome = true := by
  unfold Correlator.allocId
  cases hfind : ((List.range 256).map fun k => (c.nextId + k) % 256).find?
      (fun id => decide (id ∉ c.pendingIds)) with
  | some x => rfl
  | none =>
    exfalso
    have hall := List.find?_eq_none.mp hfind
    have hsub : ((List.range 256).map fun k => (c.nextId + k) % 256) ⊆ c.pendingIds := by
      intro x hx
      have := hall x hx
      simpa using this
    have hnodup : ((List.range 256).map fun k => (c.nextId + k) % 256).Nodup := by
      refine List.Nodup.map_on ?_ (List.nodup_range 256)
      intro x hx y hy hxy
      have hx2 : x < 256 := List.mem_range.mp hx
      have hy2 : y < 256 := List.mem_range.mp hy
      have hmod : x ≡ y [MOD 256] := Nat.ModEq.add_left_cancel' c.nextId hxy
      exact hmod.eq_of_lt_of_lt hx2 hy2
    have hlenle := (List.subperm_of_subset hnodup hsub).length_le
    have hlen1 : ((List.range 256).map fun k => (c.nextId + k) % 256).length = 256 := by
      simp
    have hlen2 : c.pendingIds.length = c.pending.length := by
      simp [Correlator.pendingIds]
    omega

theorem sendConfirmed_isSome (c : Correlator) (dest mr : Nat)
    (h : c.pending.length ≤ 255) :
    (c.sendConfirmed dest mr).isSome = true := by
  have ha := allocId_isSome c h
  unfold Correlator.sendConfirmed
  cases hopt : c.allocId with
  | none => rw [hopt] at ha; cases ha
  | some id => rfl

theorem corrRunFrom_responses_pending (l : List PendingRequest) :
    ∀ c : Correlator,
      (∀ e ∈ c.pending, ∃ a ∈ l, e.matches a.invokeId a.destination = true) →
      (corrRunFrom c
        (l.map (fun a => CorrEvent.response a.invokeId a.destination .success))).pending
        = [] := by
  induction l with
  | nil =>
    intro c h
    simp only [List.map_nil, corrRunFrom, List.foldl_nil]
    cases hp : c.pending with
    | nil => rfl
    | cons x xs =>
      exfalso
      obtain ⟨a, ha, _⟩ := h x (by rw [hp]; simp)
      simp at ha
  | cons a l ih =>
    intro c h
    simp only [List.map_cons, corrRunFrom, List.foldl_cons]
    apply ih
    intro e he
    simp only [corrStep] at he
    rw [handleResponse_pending, List.mem_filter] at he
    obtain ⟨he1, he2⟩ := he
    obtain ⟨b, hb, hm⟩ := h e he1
    rcases List.mem_cons.mp hb with rfl | hb2
    · exfalso
      rw [hm] at he2
      cases he2
    · exact ⟨b, hb2, hm⟩

theorem corrRun_append_resolveAll (evs : List CorrEvent) :
    (corrRun (evs ++ resolveAllEvents (corrRun evs))).pending = [] := by
  rw [corrRun, corrRunFrom, List.foldl_append]
  exact corrRunFrom_responses_pending _ _
    (fun e he => ⟨e, he, by simp [PendingRequest.matches]⟩)

theorem map_no_match (tail : List PendingRequest) (id dest : Nat)
    (htail : ∀ e ∈ tail, e.matches id dest = false) :
    tail.map (fun e2 => if e2.matches id dest then
      { e2 with retriesRemaining := e2.retriesRemaining - 1 } else e2) = tail := by
  induction tail with
  | nil => rfl
  | cons x xs ih =>
    simp only [List.map_cons]
    rw [if_neg (by simp [htail x (by simp)]), ih (fun e he => htail e (by simp [he]))]

theorem filter_no_match (tail : List PendingRequest) (id dest : Nat)
    (htail : ∀ e ∈ tail, e.matches id dest = false) :
    tail.filter (fun e2 => !(e2.matches id dest)) = tail := by
  rw [List.filter_eq_self]
  intro e he
  simp [htail e he]

theorem fireTimeout_retransmit (c : Correlator) (id dest r : Nat)
    (tail : List PendingRequest)
    (hp : c.pending = ⟨id, dest, r + 1⟩ :: tail)
    (htail : ∀ e ∈ tail, e.matches id dest = false) :
    c.fireTimeout id dest =
      { c with pending := ⟨id, dest, r⟩ :: tail,
               sentLog := c.sentLog ++ [(id, dest)] } := by
  unfold Correlator.fireTimeout
  rw [hp, List.find?_cons]
  simp only [matches_self]
  rw [if_neg (by simp)]
  have hmap : (PendingRequest.mk id dest (r + 1) :: tail).map (fun e2 =>
      if e2.matches id dest then
        { e2 with retriesRemaining := e2.retriesRemaining - 1 } else e2) =
      PendingRequest.mk id dest r :: tail := by
    simp only [List.map_cons]
    rw [if_pos (matches_self id dest (r + 1)), map_no_match tail id dest htail]
    simp
  rw [hmap]

theorem fireTimeout_resolve (c : Correlator) (id dest : Nat)
    (tail : List PendingRequest)
    (hp : c.pending = ⟨id, dest, 0⟩ :: tail)
    (htail : ∀ e ∈ tail, e.matches id dest = false) :
    c.fireTimeout id dest =
      { c with pending := tail,
               results := c.results ++ [(id, dest, .failure .apduTimeout)] } := by
  unfold Correlator.fireTimeout
  rw [hp, List.find?_cons]
  simp only [matches_self]
  simp only [if_true]
  have hfil : (PendingRequest.mk id dest 0 :: tail).filter
      (fun e2 => !(e2.matches id dest)) = tail := by
    rw [List.filter_cons_of_neg]
    · exact filter_no_match tail id dest htail
    · simp [matches_self]
  rw [hfil]

/-! ### Registrar lemmas -/

theorem regStep_tick_none (r : Registrar) (h : r.renewalAt = none) (t : Nat) :
    regStep r (t, .tick) = r := by
  simp [regStep, Registrar.fireDue, h]

theorem regRun_ticks_fixed (ts : List Nat) :
    ∀ r : Registrar, r.renewalAt = none →
      ts.foldl (fun r2 t => regStep r2 (t, .tick)) r = r := by
  induction ts with
  | nil => intro r _; rfl
  | cons t ts ih =>
    intro r h
    simp only [List.foldl_cons, regStep_tick_none r h t]
    exact ih r h

/-! ### Receive-loop lemmas -/

theorem receiveLoop_from (ds : List (List Nat)) :
    ∀ (del : List PropertyValue) (n : Nat),
      ds.foldl processDatagram ⟨del, n⟩ =
        ⟨del ++ ds.filterMap decodeApdu,
         n + (ds.filter (fun d => (decodeApdu d).isNone)).length⟩ := by
  induction ds with
  | nil => intro del n; simp
  | cons d ds ih =>
    intro del n
    simp only [List.foldl_cons]
    cases hd : decodeApdu d with
    | some v =>
      have hstep : processDatagram ⟨del, n⟩ d = ⟨del ++ [v], n⟩ := by
        simp [processDatagram, hd]
      rw [hstep, ih]
      simp [List.filterMap_cons, List.filter_cons, hd, List.append_assoc]
    | none =>
      have hstep : processDatagram ⟨del, n⟩ d = ⟨del, n + 1⟩ := by
        simp [processDatagram, hd]
      rw [hstep, ih]
      simp only [List.filterMap_cons, List.filter_cons, hd, Option.isNone_none,
        RxLoopState.mk.injEq, List.length_cons, if_true]
      exact ⟨trivial, by omega⟩

theorem filterMap_filter_length (ds : List (List Nat)) :
    (ds.filterMap decodeApdu).length +
      (ds.filter (fun d => (decodeApdu d).isNone)).length = ds.length := by
  induction ds with
  | nil => rfl
  | cons d ds ih =>
    cases hd : decodeApdu d with
    | some v => simp [List.filterMap_cons, List.filter_cons, hd]; omega
    | none => simp [List.filterMap_cons, List.filter_cons, hd]; omega

/-! ## Claim theorems -/

/-- C1: for every valid `PropertyValue` instance (every primitive
application tag listed in the data model, including BitString and
ObjectIdentifier, plus constructed/array forms), decoding the encoding
gives the value back: `decodeApdu (encodeApdu x) = x`. -/
theorem C1_propertyValue_roundtrip (v : PropertyValue) (hv : v.validb = true) :
    decodeApdu (encodeApdu v) = some v :=
  decodeApdu_encodeApdu v hv

/-- C1 witness: the round trip evaluated on a concrete valid value covering
every primitive tag, BitString, ObjectIdentifier and nested constructed
forms. -/
theorem C1_propertyValue_roundtrip_witness :
    sampleValue.validb = true ∧ decodeApdu (encodeApdu sampleValue) = some sampleValue :=
  ⟨by decide, C1_propertyValue_roundtrip sampleValue (by decide)⟩

/-- C6: the Codec emits the inline length form exactly for content lengths
0–4, and the extended form (length/value/type 5 followed by a 1-, 2- or
4-byte big-endian length) exactly for lengths ≥ 5; decoding inverts this,
so the boundary between lengths 4 and 5 is encoded and decoded correctly. -/
theorem C6_length_forms (n : Nat) :
    ((lenField n).1 = n ∧ (lenField n).2 = [] ↔ n ≤ 4) ∧
    (5 ≤ n → (lenField n).1 = 5 ∧
      ((n ≤ 253 ∧ (lenField n).2 = [n]) ∨
       (254 ≤ n ∧ n ≤ 65535 ∧ (lenField n).2 = [254, n / 256, n % 256]) ∨
       (65536 ≤ n ∧ (lenField n).2 = 255 :: natToBytesFixed 4 n))) ∧
    (n < 4294967296 → ∀ rest, decodeLen (lenField n).1 ((lenField n).2 ++ rest) =
        some (n, rest)) := by
  refine ⟨⟨?_, ?_⟩, ?_, fun hn rest => decodeLen_lenField n hn rest⟩
  · rintro ⟨_, h2⟩
    by_contra hgt
    unfold lenField at h2
    rw [if_neg hgt] at h2
    split_ifs at h2 <;> simp at h2
  · intro h4
    simp [lenField, h4]
  · intro h5
    unfold lenField
    rw [if_neg (by omega)]
    by_cases h2 : n ≤ 253
    · rw [if_pos h2]
      exact ⟨rfl, Or.inl ⟨h2, rfl⟩⟩
    · rw [if_neg h2]
      by_cases h3 : n ≤ 65535
      · rw [if_pos h3]
        exact ⟨rfl, Or.inr (Or.inl ⟨by omega, h3, rfl⟩)⟩
      · rw [if_neg h3]
        exact ⟨rfl, Or.inr (Or.inr ⟨by omega, rfl⟩)⟩

/-- C6 witness: the boundary lengths 4 and 5 and their decoded forms. -/
theorem C6_length_forms_witness :
    (lenField 4).1 = 4 ∧ (lenField 4).2 = [] ∧ (lenField 5).1 = 5 ∧
    decodeLen (lenField 4).1 ((lenField 4).2 ++ [9]) = some (4, [9]) ∧
    decodeLen (lenField 5).1 ((lenField 5).2 ++ [9]) = some (5, [9]) :=
  ⟨((C6_length_forms 4).1.mpr (by decide)).1,
   ((C6_length_forms 4).1.mpr (by decide)).2,
   ((C6_length_forms 5).2.1 (by decide)).1,
   (C6_length_forms 4).2.2 (by decide) [9],
   (C6_length_forms 5).2.2 (by decide) [9]⟩

/-- C2 counterexample: a write invocation with priority 6 and otherwise
valid fields is not rejected client-side — `execute_bacnet_command`
dispatches the `bacwp.exe` subprocess (network I/O) with "6" passed through
as the priority argument, so the claimed typed invalid-priority failure
without transmission does not happen. -/
theorem C2_priority6_counterexample :
    buildWriteCommand ⟨"1001", "4;1;85", "0.0", "REAL (4)", "6"⟩ =
      .dispatch ["bacwp.exe", "1001", "4", "1", "85", "6", "-1", "4", "0.0"] := by
  decide

/-- C2 amended: the write path validates only field presence, the
`objType;inst;prop` format and the tag name; priority is never examined,
so an invocation with priority "6" and otherwise valid fields dispatches
the external write command with "6" in the priority position instead of
failing. -/
theorem C2_priority6_passes_through (inp : WriteInputs) (a b c : List Char) (tv : String)
    (hsplit : pySplitChar ';' inp.writePropertyField.toList [] = [a, b, c])
    (htag : dictGet TAG_MAP inp.writeTag = some tv)
    (htv : tv ≠ "")
    (h1 : inp.writePropertyField ≠ "") (h2 : inp.writeValue ≠ "")
    (h3 : inp.writeTag ≠ "") (hp : inp.writePriority = "6") :
    buildWriteCommand inp =
      .dispatch ["bacwp.exe", inp.deviceIdentifier, String.mk a, String.mk b, String.mk c,
                 "6", "-1", tv, inp.writeValue] := by
  unfold buildWriteCommand
  rw [if_neg (by simp [h1, h2, h3, hp])]
  rw [hsplit, htag]
  dsimp only
  rw [if_neg htv, hp]

/-- C2 witness: the amended behaviour at the concrete priority-6 write. -/
theorem C2_priority6_passes_through_witness :
    dictGet TAG_MAP "REAL (4)" = some "4" ∧
    buildWriteCommand ⟨"1001", "4;1;85", "0.0", "REAL (4)", "6"⟩ =
      .dispatch ["bacwp.exe", "1001", String.mk "4".toList, String.mk "1".toList,
                 String.mk "85".toList, "6", "-1", "4", "0.0"] :=
  ⟨by decide,
   C2_priority6_passes_through ⟨"1001", "4;1;85", "0.0", "REAL (4)", "6"⟩
     "4".toList "1".toList "85".toList "4" (by decide) (by decide) (by decide)
     (by decide) (by decide) (by decide) rfl⟩

/-- C3: in every reachable correlator state, at most one `PendingRequest`
is outstanding per invoke-ID (hence per (invoke-ID, destination) pair);
allocation never assigns an invoke-ID that already has an outstanding
request to the same destination; with at most 255 concurrently outstanding
requests allocation always succeeds; and once every outstanding request
resolves, all 256 invoke-IDs are free again. -/
theorem C3_invokeId_allocation (evs : List CorrEvent) (dest mr : Nat) :
    (corrRun evs).pendingIds.Nodup ∧
    (∀ id c2, (corrRun evs).sendConfirmed dest mr = some (id, c2) →
        ¬ ∃ e ∈ (corrRun evs).pending, e.invokeId = id ∧ e.destination = dest) ∧
    ((corrRun evs).pending.length ≤ 255 →
        ((corrRun evs).sendConfirmed dest mr).isSome = true) ∧
    (corrRun (evs ++ resolveAllEvents (corrRun evs))).pending = [] ∧
    (∀ id, id < 256 →
        id ∉ (corrRun (evs ++ resolveAllEvents (corrRun evs))).pendingIds) := by
  refine ⟨corrRun_nodup evs, ?_, fun h => sendConfirmed_isSome _ dest mr h,
    corrRun_append_resolveAll evs, ?_⟩
  · intro id c2 hsend
    obtain ⟨ha, _⟩ := sendConfirmed_eq _ dest mr id c2 hsend
    have hid := allocId_not_pending _ id ha
    rintro ⟨e, he, h1, _⟩
    exact hid (List.mem_map.mpr ⟨e, he, h1⟩)
  · intro id _
    rw [Correlator.pendingIds, corrRun_append_resolveAll evs]
    simp

/-- C3 witness: a concrete run — one send, one allocation check under the
255 bound, and full reclamation after resolving everything. -/
theorem C3_invokeId_allocation_witness :
    (corrRun [CorrEvent.send 1 3]).pending.length ≤ 255 ∧
    ((corrRun [CorrEvent.send 1 3]).sendConfirmed 1 3).isSome = true ∧
    (corrRun ([CorrEvent.send 1 3] ++
        resolveAllEvents (corrRun [CorrEvent.send 1 3]))).pending = [] :=
  ⟨by decide, (C3_invokeId_allocation [CorrEvent.send 1 3] 1 3).2.2.1 (by decide),
   (C3_invokeId_allocation [CorrEvent.send 1 3] 1 3).2.2.2.1⟩

/-- C4: a confirmed request sent with maxRetries = 3 that never receives a
matching response resolves as `Failure(ApduTimeout)` after its four
timeouts, and exactly 4 datagrams — 1 initial transmission plus 3
retransmissions, all with the same invoke-ID and destination — are sent. -/
theorem C4_timeout_four_datagrams (c : Correlator) (dest id : Nat) (c1 : Correlator)
    (hsend : c.sendConfirmed dest 3 = some (id, c1)) :
    ((((c1.fireTimeout id dest).fireTimeout id dest).fireTimeout id dest).fireTimeout
        id dest).sentLog = c.sentLog ++ List.replicate 4 (id, dest) ∧
    ((((c1.fireTimeout id dest).fireTimeout id dest).fireTimeout id dest).fireTimeout
        id dest).results = c.results ++ [(id, dest, .failure .apduTimeout)] ∧
    ((((c1.fireTimeout id dest).fireTimeout id dest).fireTimeout id dest).fireTimeout
        id dest).pending = c.pending := by
  obtain ⟨ha, rfl⟩ := sendConfirmed_eq c dest 3 id c1 hsend
  have hid := allocId_not_pending c id ha
  have htail := not_matches_of_not_pending c id dest hid
  have e1 : ({ nextId := (id + 1) % 256,
               pending := ⟨id, dest, 3⟩ :: c.pending,
               sentLog := c.sentLog ++ [(id, dest)],
               results := c.results } : Correlator).fireTimeout id dest =
      { nextId := (id + 1) % 256,
        pending := ⟨id, dest, 2⟩ :: c.pending,
        sentLog := (c.sentLog ++ [(id, dest)]) ++ [(id, dest)],
        results := c.results } :=
    fireTimeout_retransmit _ id dest 2 c.pending rfl htail
  have e2 : ({ nextId := (id + 1) % 256,
               pending := ⟨id, dest, 2⟩ :: c.pending,
               sentLog := (c.sentLog ++ [(id, dest)]) ++ [(id, dest)],
               results := c.results } : Correlator).fireTimeout id dest =
      { nextId := (id + 1) % 256,
        pending := ⟨id, dest, 1⟩ :: c.pending,
        sentLog := ((c.sentLog ++ [(id, dest)]) ++ [(id, dest)]) ++ [(id, dest)],
        results := c.results } :=
    fireTimeout_retransmit _ id dest 1 c.pending rfl htail
  have e3 : ({ nextId := (id + 1) % 256,
               pending := ⟨id, dest, 1⟩ :: c.pending,
               sentLog := ((c.sentLog ++ [(id, dest)]) ++ [(id, dest)]) ++ [(id, dest)],
               results := c.results } : Correlator).fireTimeout id dest =
      { nextId := (id + 1) % 256,
        pending := ⟨id, dest, 0⟩ :: c.pending,
        sentLog := (((c.sentLog ++ [(id, dest)]) ++ [(id, dest)]) ++ [(id, dest)]) ++ [(id, dest)],
        results := c.results } :=
    fireTimeout_retransmit _ id dest 0 c.pending rfl htail
  have e4 : ({ nextId := (id + 1) % 256,
               pending := ⟨id, dest, 0⟩ :: c.pending,
               sentLog := (((c.sentLog ++ [(id, dest)]) ++ [(id, dest)]) ++ [(id, dest)]) ++ [(id, dest)],
               results := c.results } : Correlator).fireTimeout id dest =
      { nextId := (id + 1) % 256,
        pending := c.pending,
        sentLog := (((c.sentLog ++ [(id, dest)]) ++ [(id, dest)]) ++ [(id, dest)]) ++ [(id, dest)],
        results := c.results ++ [(id, dest, .failure .apduTimeout)] } :=
    fireTimeout_resolve _ id dest c.pending rfl htail
  rw [e1, e2, e3, e4]
  refine ⟨?_, rfl, rfl⟩
  simp [List.append_assoc, List.replicate_succ]

/-- C4 witness: the four-datagram timeout run from the initial state. -/
theorem C4_timeout_four_datagrams_witness :
    Correlator.init.sendConfirmed 5 3 =
      some (0, { nextId := 1, pending := [⟨0, 5, 3⟩],
                 sentLog := [(0, 5)], results := [] }) ∧
    ((((({ nextId := 1,
           pending := [⟨0, 5, 3⟩],
           sentLog := [(0, 5)],
           results := [] } : Correlator).fireTimeout 0 5).fireTimeout 0
        5).fireTimeout 0 5).fireTimeout 0 5).sentLog =
      Correlator.init.sentLog ++ List.replicate 4 (0, 5) :=
  ⟨by decide,
   (C4_timeout_four_datagrams Correlator.init 5 0
     { nextId := 1, pending := [⟨0, 5, 3⟩], sentLog := [(0, 5)], results := [] }
     (by decide)).1⟩

/-- C5: `whoIs lowLimit highLimit` over the I-Am indications of a listen
window yields exactly one record per distinct (instance, address) pair with
instance in [lowLimit, highLimit] and nothing outside the range; in
particular Who-Is(100, 200) with I-Ams for instances 150 and 199 yields
exactly those two records. -/
theorem C5_whoIs_window (low high : Nat) (iams : List DeviceRecord) :
    (whoIs low high iams).Nodup ∧
    (∀ r : DeviceRecord, r ∈ whoIs low high iams ↔
        (r ∈ iams ∧ low ≤ r.instanceNumber ∧ r.instanceNumber ≤ high)) ∧
    whoIs 100 200 [⟨150, 11⟩, ⟨199, 22⟩] = [⟨150, 11⟩, ⟨199, 22⟩] := by
  refine ⟨List.nodup_dedup _, ?_, by decide⟩
  intro r
  simp [whoIs, List.mem_dedup, List.mem_filter]

/-- C7: registering with time-to-live T arms a renewal at 0.8·T; an
`unregister` before the renewal fires immediately sends a
Register-Foreign-Device with time-to-live 0, moves the registrar to
`Unregistered`, cancels the renewal timer, and no renewal transmission
ever occurs afterwards. -/
theorem C7_unregister_cancels_renewal (cfg : BbmdConfig) (t0 t1 : Nat)
    (hbefore : t1 < t0 + renewalDelay cfg.timeToLiveSeconds) :
    (regRun [(t0, .register cfg)]).renewalAt =
        some (t0 + renewalDelay cfg.timeToLiveSeconds) ∧
    regRun [(t0, .register cfg), (t1, .unregister)] =
      { state := .unregistered, renewalAt := none, ttl := cfg.timeToLiveSeconds,
        sent := [(t0, cfg.timeToLiveSeconds), (t1, 0)] } ∧
    (∀ ts : List Nat,
      (ts.foldl (fun r2 t => regStep r2 (t, .tick))
          (regRun [(t0, .register cfg), (t1, .unregister)])).sent =
        [(t0, cfg.timeToLiveSeconds), (t1, 0)]) := by
  have h1 : regStep Registrar.init (t0, .register cfg) =
      { state := .registered, renewalAt := some (t0 + renewalDelay cfg.timeToLiveSeconds),
        ttl := cfg.timeToLiveSeconds, sent := [(t0, cfg.timeToLiveSeconds)] } := by
    simp [regStep, Registrar.fireDue, Registrar.init]
  have h2 : regStep
      { state := .registered, renewalAt := some (t0 + renewalDelay cfg.timeToLiveSeconds),
        ttl := cfg.timeToLiveSeconds,
        sent := [(t0, cfg.timeToLiveSeconds)] } (t1, .unregister) =
      { state := .unregistered, renewalAt := none, ttl := cfg.timeToLiveSeconds,
        sent := [(t0, cfg.timeToLiveSeconds), (t1, 0)] } := by
    simp [regStep, Registrar.fireDue,
      show ¬(t0 + renewalDelay cfg.timeToLiveSeconds ≤ t1) from by omega]
  have hrun : regRun [(t0, .register cfg), (t1, .unregister)] =
      { state := .unregistered, renewalAt := none, ttl := cfg.timeToLiveSeconds,
        sent := [(t0, cfg.timeToLiveSeconds), (t1, 0)] } := by
    simp only [regRun, List.foldl_cons, List.foldl_nil, h1, h2]
  refine ⟨?_, hrun, ?_⟩
  · simp only [regRun, List.foldl_cons, List.foldl_nil, h1]
  · intro ts
    rw [hrun, regRun_ticks_fixed ts _ rfl]

/-- C7 witness: register at t=0 with TTL=60 (renewal armed at 48),
unregister at t=10, then two later timer-service opportunities — the
transmission log ends at the TTL=0 send. -/
theorem C7_unregister_cancels_renewal_witness :
    renewalDelay 60 = 48 ∧
    (10 < 0 + renewalDelay 60) ∧
    regRun [(0, .register ⟨"10.0.0.1", 47808, 60⟩), (10, .unregister)] =
      { state := .unregistered, renewalAt := none, ttl := 60,
        sent := [(0, 60), (10, 0)] } ∧
    ([100, 200].foldl (fun r2 t => regStep r2 (t, .tick))
        (regRun [(0, .register ⟨"10.0.0.1", 47808, 60⟩), (10, .unregister)])).sent =
      [(0, 60), (10, 0)] :=
  ⟨by decide, by decide,
   (C7_unregister_cancels_renewal ⟨"10.0.0.1", 47808, 60⟩ 0 10 (by decide)).2.1,
   (C7_unregister_cancels_renewal ⟨"10.0.0.1", 47808, 60⟩ 0 10 (by decide)).2.2 [100, 200]⟩

/-- C8: the receive loop handles every inbound datagram — a datagram the
Codec rejects is counted and dropped while processing continues, so the
delivered payloads plus the dropped count always account for the whole
batch, and removing one malformed datagram changes nothing but the dropped
count. -/
theorem C8_receive_loop_resilient (ds : List (List Nat)) :
    (receiveLoop ds).delivered = ds.filterMap decodeApdu ∧
    (receiveLoop ds).delivered.length + (receiveLoop ds).droppedCount = ds.length ∧
    (∀ pre d post, decodeApdu d = none →
        (receiveLoop (pre ++ d :: post)).delivered =
          (receiveLoop (pre ++ post)).delivered ∧
        (receiveLoop (pre ++ d :: post)).droppedCount =
          (receiveLoop (pre ++ post)).droppedCount + 1) := by
  have hfrom := receiveLoop_from
  refine ⟨?_, ?_, ?_⟩
  · rw [receiveLoop, hfrom ds [] 0]
    simp
  · rw [receiveLoop, hfrom ds [] 0]
    simpa using filterMap_filter_length ds
  · intro pre d post hd
    rw [receiveLoop, receiveLoop, hfrom _ [] 0, hfrom _ [] 0]
    constructor
    · simp [List.filterMap_append, List.filterMap_cons, hd]
    · simp [List.filter_append, List.filter_cons, hd]
      omega

/-- C8 witness: a malformed datagram (empty byte string) between two valid
Null APDUs is dropped and counted while both neighbours are still
delivered. -/
theorem C8_receive_loop_resilient_witness :
    decodeApdu [] = none ∧
    (receiveLoop [[0], [], [0]]).delivered = (receiveLoop [[0], [0]]).delivered ∧
    (receiveLoop [[0], [], [0]]).droppedCount =
      (receiveLoop [[0], [0]]).droppedCount + 1 :=
  ⟨rfl,
   ((C8_receive_loop_resilient [[0], [], [0]]).2.2 [[0]] [] [[0]] rfl).1,
   ((C8_receive_loop_resilient [[0], [], [0]]).2.2 [[0]] [] [[0]] rfl).2⟩

/-- C9: `update_history` preserves the per-key invariant — after a
non-empty update the key's list has length at most `HISTORY_LIMIT` (10),
stays duplicate-free, and carries the most recent value at index 0, while
other keys are untouched; an empty (falsy) value leaves the whole mapping
unchanged. -/
theorem C9_update_history_invariant (h : String → List String) (k v : String) :
    (v = "" → update_history h k v = h) ∧
    (v ≠ "" →
      (update_history h k v k).length ≤ HISTORY_LIMIT ∧
      ((h k).Nodup → (update_history h k v k).Nodup) ∧
      (update_history h k v k).head? = some v ∧
      (∀ k2, k2 ≠ k → update_history h k v k2 = h k2)) := by
  constructor
  · intro hv
    simp [update_history, hv]
  · intro hv
    have hval : update_history h k v k = (v :: (h k).erase v).take HISTORY_LIMIT := by
      simp [update_history, hv]
    refine ⟨?_, ?_, ?_, ?_⟩
    · rw [hval]
      simpa using List.length_take_le HISTORY_LIMIT _
    · intro hnd
      rw [hval]
      refine ((List.take_sublist _ _).nodup) ?_
      refine List.nodup_cons.mpr ⟨?_, hnd.erase v⟩
      intro hmem
      exact ((hnd.mem_erase_iff).mp hmem).1 rfl
    · rw [hval]
      rfl
    · intro k2 hk2
      simp [update_history, hv, hk2]

/-- C9 witness: updating key "a" with value "y" over a two-entry history. -/
theorem C9_update_history_invariant_witness :
    (("y" : String) ≠ "") ∧
    (update_history (fun _ => ["x", "y"]) "a" "y" "a").length ≤ HISTORY_LIMIT ∧
    (update_history (fun _ => ["x", "y"]) "a" "y" "a").head? = some "y" ∧
    update_history (fun _ => ["x", "y"]) "a" "y" "b" = ["x", "y"] :=
  ⟨by decide,
   ((C9_update_history_invariant (fun _ => ["x", "y"]) "a" "y").2 (by decide)).1,
   ((C9_update_history_invariant (fun _ => ["x", "y"]) "a" "y").2 (by decide)).2.2.1,
   ((C9_update_history_invariant (fun _ => ["x", "y"]) "a" "y").2
     (by decide)).2.2.2 "b" (by decide)⟩

/-- C10: `parse_and_populate_device_tree` raises an uncaught `IndexError`
on a line with exactly two whitespace tokens whose first is numeric — the
guard checks `len(parts) >= 2` but the body reads `parts[2]` — while a
three-token line inserts the (first token, third token) entry as the claim
describes. -/
theorem C10_parse_device_tree_indexerror :
    parse_and_populate_device_tree "123 abc" =
      .error "IndexError: list index out of range" ∧
    parse_and_populate_device_tree "123 x 10.0.0.1" =
      .ok [("123".toList, "10.0.0.1".toList)] := by
  exact ⟨rfl, rfl⟩

end BacnetTools
